import Mathlib

/-!
Verification of the appointment-broker repository.

Times are modelled as integers (minutes on a common timeline); one hour is the
constant 60.  Intervals are pairs `(start, end)` read as the half-open interval
`[start, end)`.  External collaborators (the timestamp library, the calendar
provider, the language model) are modelled as inputs: parsed timestamps come in
as `TimeInput`, the provider's event list as `List GEvent`, and the language
model as a function argument to the agent loop.
-/

/-- Result of the external timestamp library: a raw argument either parses to an
instant (minutes) or is malformed and makes the library raise.  `dateParse`
models the call `date_parse` in `google_calendar_tools.py`: `none` means the
call raises (caught by the surrounding catch-all handler). -/
inductive TimeInput where
  | valid (minutes : Int)
  | malformed (raw : String)
deriving DecidableEq

/-- Model of `date_parse` applied to a raw timestamp argument. -/
def dateParse : TimeInput → Option Int
  | TimeInput.valid t => some t
  | TimeInput.malformed _ => none

/-- A calendar event as returned by the provider's list call.  Each of the two
fields models `event["start"].get("dateTime")` / `event["end"].get("dateTime")`:
`none` is a missing `dateTime` key (for instance an all-day event, which carries
only a `date`), `some ti` the raw string under the key. -/
structure GEvent where
  startField : Option TimeInput
  endField : Option TimeInput
deriving DecidableEq

/-- Parsing one event field: a missing key makes `date_parse(None)` raise, a
present key is handed to the timestamp library. -/
def parseField (f : Option TimeInput) : Option Int :=
  f.bind dateParse

/-- The `while current_time + 1h <= bound` emission loop of
`check_availability` (it appears twice: against the next busy start at lines
75-78 and against the window end at lines 81-84).  The loop emits the slot
`(cursor, cursor + 60)` and advances the cursor by 60 while the full hour fits
before `bound`; it returns the emitted slots together with the final cursor.
The first argument is structural fuel bounding the number of iterations; the
wrapper `emitSlots` supplies enough fuel for the loop never to be cut short. -/
def emitLoop : Nat → Int → Int → List (Int × Int) × Int
  | 0, c, _ => ([], c)
  | fuel + 1, c, bound =>
    if c + 60 ≤ bound then
      ((c, c + 60) :: (emitLoop fuel (c + 60) bound).1, (emitLoop fuel (c + 60) bound).2)
    else ([], c)

/-- The emission loop with sufficient fuel: `(bound - c).toNat` dominates the
iteration count because every iteration moves the cursor 60 closer to the
bound. -/
def emitSlots (c bound : Int) : List (Int × Int) × Int :=
  emitLoop (bound - c).toNat c bound

/-- The `for event in busy_slots` loop at lines 72-79 of
`google_calendar_tools.py`, on already-parsed busy intervals: for each busy
interval, if the cursor is before its start run the emission loop up to that
start, then move the cursor to the maximum of its current value and the busy
interval's end.  Returns the slots emitted so far and the final cursor. -/
def sweepBusy : Int → List (Int × Int) → List (Int × Int) × Int
  | c, [] => ([], c)
  | c, (bs, be) :: rest =>
    let step := if c < bs then emitSlots c bs else ([], c)
    ((step.1 ++ (sweepBusy (max step.2 be) rest).1),
      (sweepBusy (max step.2 be) rest).2)

/-- The free-slot computation of `check_availability` (lines 69-84): the busy
sweep followed by the final emission loop up to the window end. -/
def freeSlots (wStart wEnd : Int) (busy : List (Int × Int)) : List (Int × Int) :=
  (sweepBusy wStart busy).1 ++ (emitSlots (sweepBusy wStart busy).2 wEnd).1

/-- Parsing the start/end fields of every event of the provider's list, in
order; `none` when any field makes the parser raise, which the real loop turns
into an exception reaching the catch-all handler. -/
def parseBusy : List GEvent → Option (List (Int × Int))
  | [] => some []
  | ev :: rest =>
    match parseField ev.startField, parseField ev.endField, parseBusy rest with
    | some s, some e, some l => some ((s, e) :: l)
    | _, _, _ => none

/-- The four observable outcomes of `check_availability`, abstracting the
formatted message strings: the early whole-period-free message (line 67), the
no-slot message (line 87), the slot-list message (line 89), and the generic
error message of the catch-all handler (line 93). -/
inductive CheckResult where
  | entireFree (s e : Int)
  | noSlots
  | slots (l : List (Int × Int))
  | error
deriving DecidableEq

/-- Model of `check_availability` (lines 39-93): parse the two window bounds
(raising reaches the handler), take the provider's event list, return the
whole-period-free message when it is empty, otherwise parse every event's
`dateTime` fields (raising reaches the handler) and run the free-slot sweep,
reporting either the slot list or the no-slot message. -/
def check_availability (sIn eIn : TimeInput) (items : List GEvent) : CheckResult :=
  match dateParse sIn, dateParse eIn with
  | some s, some e =>
    match items with
    | [] => CheckResult.entireFree s e
    | _ :: _ =>
      match parseBusy items with
      | some busy =>
        if freeSlots s e busy = [] then CheckResult.noSlots
        else CheckResult.slots (freeSlots s e busy)
      | none => CheckResult.error
  | _, _ => CheckResult.error

/-- A call `book_appointment` issues against the calendar provider. -/
inductive ProviderCall where
  | insertEvent (s e : Int) (summary description : String)
deriving DecidableEq

/-- Outcome of `book_appointment` (lines 96-119), abstracting the message
strings: either the `events.insert` request was issued with the parsed times
(line 115) — the body contains no start/end comparison of any kind — or a parse
failure reached the catch-all handler (line 119). -/
inductive BookResult where
  | insertRequested (s e : Int) (summary description : String)
  | error
deriving DecidableEq

/-- Model of `book_appointment`: parse both times and build the insert request
from them; no validation of the order of the two times happens anywhere. -/
def book_appointment (sIn eIn : TimeInput) (summary description : String) : BookResult :=
  match dateParse sIn, dateParse eIn with
  | some s, some e => BookResult.insertRequested s e summary description
  | _, _ => BookResult.error

/-- The provider calls issued by one run of `book_appointment`: exactly the one
`events.insert` when both times parse, none when parsing raises first. -/
def book_appointment_calls (sIn eIn : TimeInput) (summary description : String) :
    List ProviderCall :=
  match dateParse sIn, dateParse eIn with
  | some s, some e => [ProviderCall.insertEvent s e summary description]
  | _, _ => []

/-- A tool invocation requested by the model, as carried on an AI message. -/
structure ToolCall where
  name : String
  args : String
deriving DecidableEq

/-- A model response: text content plus the requested tool calls. -/
structure AIMsg where
  content : String
  tool_calls : List ToolCall
deriving DecidableEq

/-- A conversation message: user input, model output, or a tool result. -/
inductive Message where
  | human (content : String)
  | ai (m : AIMsg)
  | toolResult (content : String)
deriving DecidableEq

/-- The `tool_calls` attribute read by `should_continue`; non-AI messages carry
none. -/
def toolCallsOf : Message → List ToolCall
  | Message.ai m => m.tool_calls
  | _ => []

/-- Model of `should_continue` in `app.py` (lines 66-69 of the agent section),
applied to the last message of the state: route to the action node when the
message requests tool calls, end otherwise. -/
def should_continue (lastMessage : Message) : String :=
  if toolCallsOf lastMessage ≠ [] then "action" else "end"

/-- The `ToolNode` step: execute each requested tool call through the given
tool executor and append one tool message per call. -/
def tool_node (execTool : ToolCall → String) (lastMessage : Message) : List Message :=
  (toolCallsOf lastMessage).map (fun tc => Message.toolResult (execTool tc))

/-- Nodes of the compiled graph visited during one turn. -/
inductive NodeTag where
  | agent
  | action
deriving DecidableEq

/-- The compiled two-node graph of `app.py`: entry at the agent node, the
conditional edge routes through `should_continue` to the action node or to the
terminal, and the action node loops back unconditionally.  The language model
and the tool executor are the external collaborators, passed as functions; fuel
bounds the number of cycles (the source imposes no bound).  Returns the visited
nodes and the final response content (`none` when fuel runs out mid-turn). -/
def agent_loop (llm : List Message → AIMsg) (execTool : ToolCall → String) :
    Nat → List Message → List NodeTag × Option String
  | 0, _ => ([], none)
  | fuel + 1, msgs =>
    if should_continue (Message.ai (llm msgs)) = "action" then
      (NodeTag.agent :: NodeTag.action ::
        (agent_loop llm execTool fuel
          ((msgs ++ [Message.ai (llm msgs)]) ++ tool_node execTool (Message.ai (llm msgs)))).1,
        (agent_loop llm execTool fuel
          ((msgs ++ [Message.ai (llm msgs)]) ++ tool_node execTool (Message.ai (llm msgs)))).2)
    else ([NodeTag.agent], some (llm msgs).content)

/-! Lemmas about the emission loop. -/

/-- The emission loop never moves the cursor backwards. -/
theorem emitLoop_cursor_ge (fuel : Nat) (c bound : Int) : c ≤ (emitLoop fuel c bound).2 := by
  induction fuel generalizing c with
  | zero => simp [emitLoop]
  | succ f ih =>
    by_cases h : c + 60 ≤ bound
    · simp only [emitLoop, if_pos h]
      have := ih (c + 60)
      omega
    · simp [emitLoop, if_neg h]

/-- With sufficient fuel the loop only stops because the next full hour does
not fit before the bound. -/
theorem emitLoop_stop (fuel : Nat) (c bound : Int) (hf : (bound - c).toNat ≤ fuel) :
    bound < (emitLoop fuel c bound).2 + 60 := by
  induction fuel generalizing c with
  | zero =>
    simp only [emitLoop]
    omega
  | succ f ih =>
    by_cases h : c + 60 ≤ bound
    · simp only [emitLoop, if_pos h]
      exact ih (c + 60) (by omega)
    · simp only [emitLoop, if_neg h]
      omega

/-- Every emitted slot starts at or after the initial cursor, lasts exactly one
hour, ends at or before the bound, and ends at or before the final cursor. -/
theorem emitLoop_mem (fuel : Nat) (c bound : Int) (p : Int × Int)
    (hp : p ∈ (emitLoop fuel c bound).1) :
    c ≤ p.1 ∧ p.2 = p.1 + 60 ∧ p.2 ≤ bound ∧ p.2 ≤ (emitLoop fuel c bound).2 := by
  induction fuel generalizing c with
  | zero => simp [emitLoop] at hp
  | succ f ih =>
    by_cases h : c + 60 ≤ bound
    · simp only [emitLoop, if_pos h] at hp ⊢
      rcases List.mem_cons.mp hp with he | ht
      · subst he
        have := emitLoop_cursor_ge f (c + 60) bound
        exact ⟨le_refl _, rfl, h, this⟩
      · have := ih (c + 60) ht
        exact ⟨by omega, this.2.1, this.2.2.1, this.2.2.2⟩
    · simp [emitLoop, if_neg h] at hp

/-- The emitted slots are ordered: each slot ends no later than any later slot
starts. -/
theorem emitLoop_pairwise (fuel : Nat) (c bound : Int) :
    ((emitLoop fuel c bound).1).Pairwise (fun a b => a.2 ≤ b.1) := by
  induction fuel generalizing c with
  | zero => simp [emitLoop]
  | succ f ih =>
    by_cases h : c + 60 ≤ bound
    · simp only [emitLoop, if_pos h]
      rw [List.pairwise_cons]
      refine ⟨?_, ih (c + 60)⟩
      intro q hq
      have := emitLoop_mem f (c + 60) bound q hq
      simpa using this.1
    · simp [emitLoop, if_neg h]

/-- With sufficient fuel, every point between the initial and the final cursor
lies inside one of the emitted slots. -/
theorem emitLoop_cover (fuel : Nat) (c bound t : Int) (hf : (bound - c).toNat ≤ fuel)
    (h1 : c ≤ t) (h2 : t < (emitLoop fuel c bound).2) :
    ∃ p ∈ (emitLoop fuel c bound).1, p.1 ≤ t ∧ t < p.2 := by
  induction fuel generalizing c with
  | zero =>
    simp only [emitLoop] at h2
    omega
  | succ f ih =>
    by_cases h : c + 60 ≤ bound
    · simp only [emitLoop, if_pos h] at h2 ⊢
      by_cases ht : t < c + 60
      · exact ⟨(c, c + 60), List.mem_cons_self _ _, h1, ht⟩
      · obtain ⟨p, hp, hb⟩ := ih (c + 60) (by omega) (by omega) h2
        exact ⟨p, List.mem_cons_of_mem _ hp, hb⟩
    · simp only [emitLoop, if_neg h] at h2
      omega

/-- Closed form of the emission loop with sufficient fuel: the slots tile
forward from the cursor, one per full hour that fits before the bound. -/
theorem emitLoop_tiling (fuel : Nat) (c bound : Int) (hf : (bound - c).toNat ≤ fuel) :
    (emitLoop fuel c bound).1 =
      (List.range ((bound - c).toNat / 60)).map
        (fun i : Nat => (c + 60 * (i : Int), c + 60 * (i : Int) + 60)) := by
  induction fuel generalizing c with
  | zero =>
    have h0 : (bound - c).toNat / 60 = 0 := by omega
    simp [emitLoop, h0]
  | succ f ih =>
    by_cases h : c + 60 ≤ bound
    · have hn : (bound - c).toNat / 60 = (bound - (c + 60)).toNat / 60 + 1 := by omega
      simp only [emitLoop, if_pos h]
      rw [ih (c + 60) (by omega), hn, List.range_succ_eq_map, List.map_cons, List.map_map]
      refine congrArg₂ _ (by norm_num) ?_
      refine List.map_congr_left ?_
      intro i _
      simp [Function.comp]
      ring
    · have h0 : (bound - c).toNat / 60 = 0 := by omega
      simp [emitLoop, if_neg h, h0]

/-- The wrapped emission loop never moves the cursor backwards. -/
theorem emitSlots_cursor_ge (c bound : Int) : c ≤ (emitSlots c bound).2 :=
  emitLoop_cursor_ge _ c bound

/-- The wrapped emission loop stops only because the next hour does not fit. -/
theorem emitSlots_stop (c bound : Int) : bound < (emitSlots c bound).2 + 60 :=
  emitLoop_stop _ c bound (le_refl _)

/-- Slot bounds for the wrapped emission loop. -/
theorem emitSlots_mem (c bound : Int) (p : Int × Int) (hp : p ∈ (emitSlots c bound).1) :
    c ≤ p.1 ∧ p.2 = p.1 + 60 ∧ p.2 ≤ bound ∧ p.2 ≤ (emitSlots c bound).2 :=
  emitLoop_mem _ c bound p hp

/-- Ordering of the wrapped emission loop's slots. -/
theorem emitSlots_pairwise (c bound : Int) :
    ((emitSlots c bound).1).Pairwise (fun a b => a.2 ≤ b.1) :=
  emitLoop_pairwise _ c bound

/-- Every point between initial and final cursor is inside an emitted slot. -/
theorem emitSlots_cover (c bound t : Int) (h1 : c ≤ t) (h2 : t < (emitSlots c bound).2) :
    ∃ p ∈ (emitSlots c bound).1, p.1 ≤ t ∧ t < p.2 :=
  emitLoop_cover _ c bound t (le_refl _) h1 h2

/-- Closed form of the wrapped emission loop. -/
theorem emitSlots_tiling (c bound : Int) :
    (emitSlots c bound).1 =
      (List.range ((bound - c).toNat / 60)).map
        (fun i : Nat => (c + 60 * (i : Int), c + 60 * (i : Int) + 60)) :=
  emitLoop_tiling _ c bound (le_refl _)

/-! Lemmas about the busy-interval sweep. -/

/-- The guard `if current_time < event_start` is redundant for the value of the
step: when the cursor is already at or past the busy start, the emission loop
performs no iteration and leaves the cursor in place. -/
theorem sweep_step_eq (c bs : Int) :
    (if c < bs then emitSlots c bs else (([], c) : List (Int × Int) × Int)) =
      emitSlots c bs := by
  by_cases hc : c < bs
  · rw [if_pos hc]
  · rw [if_neg hc]
    have h0 : (bs - c).toNat = 0 := by omega
    simp [emitSlots, h0, emitLoop]

/-- Unfolding of the sweep on a first busy interval, with the redundant guard
removed. -/
theorem sweepBusy_cons (c bs be : Int) (rest : List (Int × Int)) :
    sweepBusy c ((bs, be) :: rest) =
      ((emitSlots c bs).1 ++ (sweepBusy (max (emitSlots c bs).2 be) rest).1,
        (sweepBusy (max (emitSlots c bs).2 be) rest).2) := by
  simp only [sweepBusy, sweep_step_eq]

/-- The sweep never moves the cursor backwards. -/
theorem sweepBusy_cursor_ge (c : Int) (busy : List (Int × Int)) :
    c ≤ (sweepBusy c busy).2 := by
  induction busy generalizing c with
  | nil => simp [sweepBusy]
  | cons b rest ih =>
    obtain ⟨bs, be⟩ := b
    rw [sweepBusy_cons]
    have h1 := emitSlots_cursor_ge c bs
    have h2 := ih (max (emitSlots c bs).2 be)
    simp only at h2 ⊢
    omega

/-- The final cursor of the sweep is at or past the end of every busy
interval processed. -/
theorem sweepBusy_cursor_ge_ends (c : Int) (busy : List (Int × Int)) (b : Int × Int)
    (hb : b ∈ busy) : b.2 ≤ (sweepBusy c busy).2 := by
  induction busy generalizing c with
  | nil => simp at hb
  | cons hd rest ih =>
    obtain ⟨bs, be⟩ := hd
    rw [sweepBusy_cons]
    rcases List.mem_cons.mp hb with he | ht
    · subst he
      have h2 := sweepBusy_cursor_ge (max (emitSlots c bs).2 be) rest
      simp only
      omega
    · exact ih (max (emitSlots c bs).2 be) ht

/-- Every slot of the sweep starts at or after the initial cursor, lasts
exactly one hour, ends at or before the final cursor, and ends at or before the
start of some busy interval of the list. -/
theorem sweepBusy_mem (c : Int) (busy : List (Int × Int)) (p : Int × Int)
    (hp : p ∈ (sweepBusy c busy).1) :
    c ≤ p.1 ∧ p.2 = p.1 + 60 ∧ p.2 ≤ (sweepBusy c busy).2 ∧ ∃ b ∈ busy, p.2 ≤ b.1 := by
  induction busy generalizing c with
  | nil => simp [sweepBusy] at hp
  | cons hd rest ih =>
    obtain ⟨bs, be⟩ := hd
    rw [sweepBusy_cons] at hp ⊢
    have hcur : (emitSlots c bs).2 ≤ (sweepBusy (max (emitSlots c bs).2 be) rest).2 := by
      have := sweepBusy_cursor_ge (max (emitSlots c bs).2 be) rest
      omega
    rcases List.mem_append.mp hp with hl | hr
    · have h := emitSlots_mem c bs p hl
      exact ⟨h.1, h.2.1, by omega, ⟨(bs, be), List.mem_cons_self _ _, h.2.2.1⟩⟩
    · have h := ih (max (emitSlots c bs).2 be) hr
      have h1 := emitSlots_cursor_ge c bs
      refine ⟨by omega, h.2.1, h.2.2.1, ?_⟩
      obtain ⟨b, hb, hb2⟩ := h.2.2.2
      exact ⟨b, List.mem_cons_of_mem _ hb, hb2⟩

/-- Ordering of the sweep's slots. -/
theorem sweepBusy_pairwise (c : Int) (busy : List (Int × Int)) :
    ((sweepBusy c busy).1).Pairwise (fun a b => a.2 ≤ b.1) := by
  induction busy generalizing c with
  | nil => simp [sweepBusy]
  | cons hd rest ih =>
    obtain ⟨bs, be⟩ := hd
    rw [sweepBusy_cons]
    rw [List.pairwise_append]
    refine ⟨emitSlots_pairwise c bs, ih (max (emitSlots c bs).2 be), ?_⟩
    intro p hp q hq
    have h1 := emitSlots_mem c bs p hp
    have h2 := sweepBusy_mem (max (emitSlots c bs).2 be) rest q hq
    omega

/-- No slot of the sweep overlaps any busy interval of a start-sorted list. -/
theorem sweepBusy_no_overlap (c : Int) (busy : List (Int × Int))
    (hs : busy.Pairwise (fun a b => a.1 ≤ b.1)) (p : Int × Int)
    (hp : p ∈ (sweepBusy c busy).1) (b : Int × Int) (hb : b ∈ busy) :
    ¬(p.1 < b.2 ∧ b.1 < p.2) := by
  induction busy generalizing c with
  | nil => simp at hb
  | cons hd rest ih =>
    obtain ⟨bs, be⟩ := hd
    rw [List.pairwise_cons] at hs
    rw [sweepBusy_cons] at hp
    rcases List.mem_append.mp hp with hl | hr
    · have h := emitSlots_mem c bs p hl
      rcases List.mem_cons.mp hb with he | ht
      · subst he
        simp only at h ⊢
        omega
      · have := hs.1 b ht
        omega
    · rcases List.mem_cons.mp hb with he | ht
      · subst he
        have h := sweepBusy_mem (max (emitSlots c bs).2 be) rest p hr
        have hge := emitSlots_cursor_ge c bs
        simp only at h ⊢
        omega
      · exact ih (max (emitSlots c bs).2 be) hs.2 hr ht

/-! Lemmas about the whole free-slot computation. -/

/-- Every free slot starts at or after the window start and lasts exactly one
hour; provided every busy interval starts no later than the window end, every
free slot also ends at or before the window end. -/
theorem freeSlots_mem (wStart wEnd : Int) (busy : List (Int × Int))
    (hstarts : ∀ b ∈ busy, b.1 ≤ wEnd) (p : Int × Int)
    (hp : p ∈ freeSlots wStart wEnd busy) :
    wStart ≤ p.1 ∧ p.2 = p.1 + 60 ∧ p.2 ≤ wEnd := by
  rcases List.mem_append.mp hp with hl | hr
  · have h := sweepBusy_mem wStart busy p hl
    obtain ⟨b, hb, hb2⟩ := h.2.2.2
    exact ⟨h.1, h.2.1, le_trans hb2 (hstarts b hb)⟩
  · have h := emitSlots_mem (sweepBusy wStart busy).2 wEnd p hr
    have h1 := sweepBusy_cursor_ge wStart busy
    exact ⟨by omega, h.2.1, h.2.2.1⟩

/-- The free slots are ordered: each ends no later than any later one starts. -/
theorem freeSlots_pairwise (wStart wEnd : Int) (busy : List (Int × Int)) :
    (freeSlots wStart wEnd busy).Pairwise (fun a b => a.2 ≤ b.1) := by
  rw [freeSlots, List.pairwise_append]
  refine ⟨sweepBusy_pairwise wStart busy, emitSlots_pairwise _ wEnd, ?_⟩
  intro p hp q hq
  have h1 := sweepBusy_mem wStart busy p hp
  have h2 := emitSlots_mem (sweepBusy wStart busy).2 wEnd q hq
  omega

/-- On a start-sorted busy list, no free slot overlaps any busy interval. -/
theorem freeSlots_no_overlap (wStart wEnd : Int) (busy : List (Int × Int))
    (hs : busy.Pairwise (fun a b => a.1 ≤ b.1)) (p : Int × Int)
    (hp : p ∈ freeSlots wStart wEnd busy) (b : Int × Int) (hb : b ∈ busy) :
    ¬(p.1 < b.2 ∧ b.1 < p.2) := by
  rcases List.mem_append.mp hp with hl | hr
  · exact sweepBusy_no_overlap wStart busy hs p hl b hb
  · have h := emitSlots_mem (sweepBusy wStart busy).2 wEnd p hr
    have h2 := sweepBusy_cursor_ge_ends wStart busy b hb
    omega

/-- Coverage invariant of the sweep: starting the cursor at `c`, every full
hour lying after the cursor and before the window end meets a produced slot or
a busy interval, provided every busy interval is nonempty. -/
theorem sweepBusy_cover (busy : List (Int × Int)) (c wEnd t : Int)
    (hlt : ∀ b ∈ busy, b.1 < b.2) (h1 : c ≤ t) (h2 : t + 60 ≤ wEnd) :
    ∃ x, t ≤ x ∧ x < t + 60 ∧
      ((∃ p ∈ (sweepBusy c busy).1 ++ (emitSlots (sweepBusy c busy).2 wEnd).1,
          p.1 ≤ x ∧ x < p.2) ∨
        (∃ b ∈ busy, b.1 ≤ x ∧ x < b.2)) := by
  induction busy generalizing c with
  | nil =>
    simp only [sweepBusy, List.nil_append]
    have hstop := emitSlots_stop c wEnd
    obtain ⟨p, hp, hb⟩ := emitSlots_cover c wEnd t h1 (by omega)
    exact ⟨t, le_refl _, by omega, Or.inl ⟨p, hp, hb⟩⟩
  | cons hd rest ih =>
    obtain ⟨bs, be⟩ := hd
    rw [sweepBusy_cons]
    simp only
    by_cases hA : t < (emitSlots c bs).2
    · obtain ⟨p, hp, hb⟩ := emitSlots_cover c bs t h1 hA
      exact ⟨t, le_refl _, by omega,
        Or.inl ⟨p, List.mem_append_left _ (List.mem_append_left _ hp), hb⟩⟩
    · by_cases hB : t < max (emitSlots c bs).2 be
      · have hbe : t < be := by omega
        have hstop := emitSlots_stop c bs
        have hbsbe : bs < be := hlt (bs, be) (List.mem_cons_self _ _)
        refine ⟨max t bs, le_max_left _ _, by omega,
          Or.inr ⟨(bs, be), List.mem_cons_self _ _, le_max_right _ _, by omega⟩⟩
      · obtain ⟨x, hx1, hx2, hx3⟩ :=
          ih (max (emitSlots c bs).2 be)
            (fun b hb => hlt b (List.mem_cons_of_mem _ hb)) (by omega)
        refine ⟨x, hx1, hx2, ?_⟩
        rcases hx3 with ⟨p, hp, hpb⟩ | ⟨b, hb, hbb⟩
        · rcases List.mem_append.mp hp with hpl | hpr
          · exact Or.inl ⟨p,
              List.mem_append_left _ (List.mem_append_right _ hpl), hpb⟩
          · exact Or.inl ⟨p, List.mem_append_right _ hpr, hpb⟩
        · exact Or.inr ⟨b, List.mem_cons_of_mem _ hb, hbb⟩

/-- Coverage for the free-slot computation: every full hour inside the window
meets a free slot or a busy interval, provided every busy interval is
nonempty.  Equivalently, every maximal gap left over by the slots and the busy
intervals is strictly shorter than one hour. -/
theorem freeSlots_cover (wStart wEnd : Int) (busy : List (Int × Int))
    (hlt : ∀ b ∈ busy, b.1 < b.2) (t : Int) (h1 : wStart ≤ t) (h2 : t + 60 ≤ wEnd) :
    ∃ x, t ≤ x ∧ x < t + 60 ∧
      ((∃ p ∈ freeSlots wStart wEnd busy, p.1 ≤ x ∧ x < p.2) ∨
        (∃ b ∈ busy, b.1 ≤ x ∧ x < b.2)) :=
  sweepBusy_cover busy wStart wEnd t hlt h1 h2

/-- Helper for claim C10: if any event of the provider's list has a start or
end field the parser cannot handle, parsing the busy list as a whole fails. -/
theorem parseBusy_eq_none (items : List GEvent)
    (h : ∃ ev ∈ items, parseField ev.startField = none ∨ parseField ev.endField = none) :
    parseBusy items = none := by
  induction items with
  | nil => simp at h
  | cons ev rest ih =>
    obtain ⟨e0, he0, hbad⟩ := h
    rcases List.mem_cons.mp he0 with he | ht
    · subst he
      rcases hbad with hb | hb
      · simp [parseBusy, hb]
      · cases hs : parseField e0.startField <;> simp [parseBusy, hs, hb]
    · have hrec := ih ⟨e0, ht, hbad⟩
      cases hs : parseField ev.startField <;>
        cases he2 : parseField ev.endField <;>
          simp [parseBusy, hs, he2, hrec]

/-! Claim theorems. -/

/-- Claim C1, counterexample: the claim quantifies over every start-sorted
busy list, but a busy interval starting after the window end makes the sweep
emit slots outside the window.  With window `[0, 90)` and the single (sorted)
busy interval `[300, 360)`, the sweep emits the slot `(60, 120)`, which ends
after the window end 90, so the conjunct "every slot is fully contained within
the query window" fails. -/
theorem freeSlots_window_containment_cex :
    ([((300 : Int), (360 : Int))].Pairwise (fun a b => a.1 ≤ b.1)) ∧
    (60, 120) ∈ freeSlots 0 90 [(300, 360)] ∧ ¬((120 : Int) ≤ 90) := by
  refine ⟨List.pairwise_singleton _ _, by decide, by decide⟩

/-- Claim C1 as amended: for every window and every start-sorted busy list
whose intervals all start no later than the window end, the slots produced by
the free-slot sweep are ordered and pairwise disjoint (each ends no later than
any later one starts), each is exactly one hour long, each is fully contained
in the window, and none overlaps any busy interval. -/
theorem freeSlots_sound (wStart wEnd : Int) (busy : List (Int × Int))
    (hsorted : busy.Pairwise (fun a b => a.1 ≤ b.1))
    (hstarts : ∀ b ∈ busy, b.1 ≤ wEnd) :
    (freeSlots wStart wEnd busy).Pairwise (fun a b => a.2 ≤ b.1) ∧
    (∀ p ∈ freeSlots wStart wEnd busy, p.2 = p.1 + 60 ∧ wStart ≤ p.1 ∧ p.2 ≤ wEnd) ∧
    (∀ p ∈ freeSlots wStart wEnd busy, ∀ b ∈ busy, ¬(p.1 < b.2 ∧ b.1 < p.2)) := by
  refine ⟨freeSlots_pairwise wStart wEnd busy, ?_, ?_⟩
  · intro p hp
    have h := freeSlots_mem wStart wEnd busy hstarts p hp
    exact ⟨h.2.1, h.1, h.2.2⟩
  · intro p hp b hb
    exact freeSlots_no_overlap wStart wEnd busy hsorted p hp b hb

/-- Witness for the amended claim C1 at the window `[540, 720)` with the busy
interval `[600, 630)`. -/
theorem freeSlots_sound_witness :
    ([((600 : Int), (630 : Int))].Pairwise (fun a b => a.1 ≤ b.1)) ∧
    (∀ b ∈ [((600 : Int), (630 : Int))], b.1 ≤ (720 : Int)) ∧
    ((freeSlots 540 720 [(600, 630)]).Pairwise (fun a b => a.2 ≤ b.1) ∧
      (∀ p ∈ freeSlots 540 720 [(600, 630)],
        p.2 = p.1 + 60 ∧ (540 : Int) ≤ p.1 ∧ p.2 ≤ 720) ∧
      (∀ p ∈ freeSlots 540 720 [(600, 630)], ∀ b ∈ [((600 : Int), (630 : Int))],
        ¬(p.1 < b.2 ∧ b.1 < p.2))) :=
  ⟨List.pairwise_singleton _ _, by decide,
    freeSlots_sound 540 720 [(600, 630)] (List.pairwise_singleton _ _) (by decide)⟩

/-- Claim C2: for every window and start-sorted busy list whose intervals are
nonempty (the data model's interval invariant `start < end`) and fully inside
the window, no slot overlaps any busy interval, slots and busy intervals lie
inside the window, and every full hour inside the window meets a slot or a busy
interval — so the gaps left over are each strictly shorter than one hour, and
slots, busy intervals and sub-hour gaps together exhaust the window. -/
theorem freeSlots_partition_window (wStart wEnd : Int) (busy : List (Int × Int))
    (hsorted : busy.Pairwise (fun a b => a.1 ≤ b.1))
    (hin : ∀ b ∈ busy, wStart ≤ b.1 ∧ b.2 ≤ wEnd ∧ b.1 < b.2) :
    (∀ p ∈ freeSlots wStart wEnd busy, ∀ b ∈ busy, ¬(p.1 < b.2 ∧ b.1 < p.2)) ∧
    (∀ p ∈ freeSlots wStart wEnd busy, wStart ≤ p.1 ∧ p.2 = p.1 + 60 ∧ p.2 ≤ wEnd) ∧
    (∀ t, wStart ≤ t → t + 60 ≤ wEnd →
      ∃ x, t ≤ x ∧ x < t + 60 ∧
        ((∃ p ∈ freeSlots wStart wEnd busy, p.1 ≤ x ∧ x < p.2) ∨
          (∃ b ∈ busy, b.1 ≤ x ∧ x < b.2))) := by
  have hstarts : ∀ b ∈ busy, b.1 ≤ wEnd := by
    intro b hb
    have := hin b hb
    omega
  refine ⟨?_, ?_, ?_⟩
  · intro p hp b hb
    exact freeSlots_no_overlap wStart wEnd busy hsorted p hp b hb
  · intro p hp
    exact freeSlots_mem wStart wEnd busy hstarts p hp
  · intro t h1 h2
    refine freeSlots_cover wStart wEnd busy ?_ t h1 h2
    intro b hb
    exact (hin b hb).2.2

/-- Witness for claim C2 at the window `[0, 180)` with the busy interval
`[30, 40)`. -/
theorem freeSlots_partition_window_witness :
    ([((30 : Int), (40 : Int))].Pairwise (fun a b => a.1 ≤ b.1)) ∧
    (∀ b ∈ [((30 : Int), (40 : Int))], (0 : Int) ≤ b.1 ∧ b.2 ≤ 180 ∧ b.1 < b.2) ∧
    ((∀ p ∈ freeSlots 0 180 [(30, 40)], ∀ b ∈ [((30 : Int), (40 : Int))],
        ¬(p.1 < b.2 ∧ b.1 < p.2)) ∧
      (∀ p ∈ freeSlots 0 180 [(30, 40)], (0 : Int) ≤ p.1 ∧ p.2 = p.1 + 60 ∧ p.2 ≤ 180) ∧
      (∀ t, (0 : Int) ≤ t → t + 60 ≤ 180 →
        ∃ x, t ≤ x ∧ x < t + 60 ∧
          ((∃ p ∈ freeSlots 0 180 [(30, 40)], p.1 ≤ x ∧ x < p.2) ∨
            (∃ b ∈ [((30 : Int), (40 : Int))], b.1 ≤ x ∧ x < b.2)))) :=
  ⟨List.pairwise_singleton _ _, by decide,
    freeSlots_partition_window 0 180 [(30, 40)] (List.pairwise_singleton _ _) (by decide)⟩

/-- Claim C3, counterexample: with an empty busy list `check_availability`
returns early with the whole-period-free message (line 66-67 of the source) and
never runs the slot computation, so on the window 09:00-12:00 (minutes 540 to
720) it does not return the three slots the claim promises. -/
theorem check_availability_empty_busy_cex :
    check_availability (TimeInput.valid 540) (TimeInput.valid 720) [] =
      CheckResult.entireFree 540 720 ∧
    check_availability (TimeInput.valid 540) (TimeInput.valid 720) [] ≠
      CheckResult.slots [(540, 600), (600, 660), (660, 720)] := by
  exact ⟨rfl, by decide⟩

/-- Claim C3 as amended: with an empty busy list `check_availability` returns
the whole-period-free message without computing slots; the free-slot sweep
itself, run on an empty busy list, returns exactly `floor((end-start)/1h)`
consecutive one-hour slots tiling the window from its start, and on the window
09:00-12:00 would yield the slots 09:00-10:00, 10:00-11:00, 11:00-12:00. -/
theorem freeSlots_empty_busy_tiling :
    (∀ t u : Int, check_availability (TimeInput.valid t) (TimeInput.valid u) [] =
      CheckResult.entireFree t u) ∧
    (∀ s e : Int, freeSlots s e [] =
      (List.range ((e - s).toNat / 60)).map
        (fun i : Nat => (s + 60 * (i : Int), s + 60 * (i : Int) + 60))) ∧
    freeSlots 540 720 [] = [(540, 600), (600, 660), (660, 720)] := by
  refine ⟨fun t u => rfl, fun s e => ?_, by decide⟩
  have h : freeSlots s e [] = (emitSlots s e).1 := by
    simp [freeSlots, sweepBusy]
  rw [h, emitSlots_tiling]

/-- Claim C4, counterexample: on the window 09:00-12:00 (540 to 720) with the
busy interval 10:00-10:30 (600 to 630), the sweep does not produce the claimed
slots 09:00-10:00 and 11:00-12:00: after the busy interval the cursor resumes
at its end 10:30 rather than at the next hour boundary. -/
theorem freeSlots_hour_alignment_cex :
    freeSlots 540 720 [(600, 630)] ≠ [(540, 600), (660, 720)] := by decide

/-- Claim C4 as amended: on the window 09:00-12:00 with the busy interval
10:00-10:30, the sweep resumes at the busy interval's end and returns the two
slots 09:00-10:00 and 10:30-11:30 (the dropped sub-hour remainder is
11:30-12:00); `check_availability` reports exactly these. -/
theorem freeSlots_after_busy_resumes_at_busy_end :
    freeSlots 540 720 [(600, 630)] = [(540, 600), (630, 690)] ∧
    check_availability (TimeInput.valid 540) (TimeInput.valid 720)
      [GEvent.mk (some (TimeInput.valid 600)) (some (TimeInput.valid 630))] =
      CheckResult.slots [(540, 600), (630, 690)] := by decide

/-- Claim C5, counterexample: the claim says a window shorter than one hour
yields no slots regardless of the busy intervals supplied, but a busy interval
starting after the window end makes the sweep emit slots even inside a
50-minute window. -/
theorem freeSlots_short_window_cex :
    ((50 : Int) - 0 < 60) ∧ freeSlots 0 50 [(300, 360)] ≠ [] := by
  exact ⟨by decide, by decide⟩

/-- Claim C5 as amended: a window strictly shorter than one hour yields an
empty slot list for every busy list whose intervals all start no later than
the window end (in particular for every busy list the provider can return for
that window). -/
theorem freeSlots_short_window_empty (wStart wEnd : Int) (busy : List (Int × Int))
    (hshort : wEnd - wStart < 60) (hstarts : ∀ b ∈ busy, b.1 ≤ wEnd) :
    freeSlots wStart wEnd busy = [] := by
  cases h : freeSlots wStart wEnd busy with
  | nil => rfl
  | cons p rest =>
    have hp : p ∈ freeSlots wStart wEnd busy := by
      rw [h]
      exact List.mem_cons_self _ _
    have := freeSlots_mem wStart wEnd busy hstarts p hp
    omega

/-- Witness for the amended claim C5 at the 50-minute window `[0, 50)` with
the busy interval `[10, 20)`. -/
theorem freeSlots_short_window_witness :
    ((50 : Int) - 0 < 60) ∧ (∀ b ∈ [((10 : Int), (20 : Int))], b.1 ≤ (50 : Int)) ∧
    freeSlots 0 50 [(10, 20)] = [] :=
  ⟨by decide, by decide,
    freeSlots_short_window_empty 0 50 [(10, 20)] (by decide) (by decide)⟩

/-- Claim C6, counterexample: a booking request whose end 09:00 precedes its
start 12:00 is not rejected by any validation in `book_appointment`; the body
reaches `events.insert` and issues the provider call with exactly those
times. -/
theorem book_appointment_no_validation_cex :
    book_appointment (TimeInput.valid 720) (TimeInput.valid 540) "Meeting" "" =
      BookResult.insertRequested 720 540 "Meeting" "" ∧
    book_appointment_calls (TimeInput.valid 720) (TimeInput.valid 540) "Meeting" "" ≠ [] := by
  exact ⟨rfl, by decide⟩

/-- Claim C6 as amended: `book_appointment` performs no ordering validation of
its times: for every parseable start and end — including an end before the
start — it issues the `events.insert` provider call with those times; only the
provider can reject the request, and that failure is caught and reported as
the generic booking error message. -/
theorem book_appointment_always_inserts :
    ∀ (s e : Int) (summary description : String),
      book_appointment (TimeInput.valid s) (TimeInput.valid e) summary description =
        BookResult.insertRequested s e summary description ∧
      book_appointment_calls (TimeInput.valid s) (TimeInput.valid e) summary description =
        [ProviderCall.insertEvent s e summary description] :=
  fun _ _ _ _ => ⟨rfl, rfl⟩

/-- Claim C7: when the start or the end timestamp fails to parse,
`check_availability` returns the generic apologetic error message; the model
is a total function, so no failure escapes as an exception. -/
theorem check_availability_malformed_time_error (sIn eIn : TimeInput)
    (items : List GEvent) (h : dateParse sIn = none ∨ dateParse eIn = none) :
    check_availability sIn eIn items = CheckResult.error := by
  cases hs : dateParse sIn with
  | none => simp [check_availability, hs]
  | some s =>
    cases he : dateParse eIn with
    | none => simp [check_availability, hs, he]
    | some e =>
      rcases h with h | h
      · rw [hs] at h
        exact absurd h (by simp)
      · rw [he] at h
        exact absurd h (by simp)

/-- Witness for claim C7 with an unparseable start timestamp. -/
theorem check_availability_malformed_time_error_witness :
    (dateParse (TimeInput.malformed "not a date") = none ∨
      dateParse (TimeInput.valid 720) = none) ∧
    check_availability (TimeInput.malformed "not a date") (TimeInput.valid 720) [] =
      CheckResult.error :=
  ⟨Or.inl rfl,
    check_availability_malformed_time_error _ _ [] (Or.inl rfl)⟩

/-- Claim C8: the conditional edge routes the generate state to the act state
exactly when the model response carries at least one tool call, and a turn
whose first model response carries none halts after that single generate step
with the response as the turn's output, never visiting the action node. -/
theorem agent_loop_halts_without_tool_calls (llm : List Message → AIMsg)
    (execTool : ToolCall → String) (msgs : List Message) (fuel : Nat)
    (h : (llm msgs).tool_calls = []) :
    (∀ m : AIMsg, (should_continue (Message.ai m) = "action" ↔ m.tool_calls ≠ [])) ∧
    agent_loop llm execTool (fuel + 1) msgs = ([NodeTag.agent], some (llm msgs).content) := by
  constructor
  · intro m
    by_cases hm : m.tool_calls = []
    · simp [should_continue, toolCallsOf, hm]
    · simp [should_continue, toolCallsOf, hm]
  · have hroute : should_continue (Message.ai (llm msgs)) = "end" := by
      simp [should_continue, toolCallsOf, h]
    simp [agent_loop, hroute]

/-- Witness for claim C8: a model that answers plain text with no tool calls
makes the loop halt after one generate step. -/
theorem agent_loop_halts_witness :
    ((fun _ : List Message => AIMsg.mk "Hello" []) [Message.human "hi"]).tool_calls = [] ∧
    agent_loop (fun _ : List Message => AIMsg.mk "Hello" []) (fun _ => "") 1
      [Message.human "hi"] = ([NodeTag.agent], some "Hello") :=
  ⟨rfl,
    (agent_loop_halts_without_tool_calls (fun _ : List Message => AIMsg.mk "Hello" [])
      (fun _ => "") [Message.human "hi"] 0 rfl).2⟩

/-- Claim C9: the free-slot computation and the whole availability check are
deterministic pure functions of their inputs, so running either twice on the
same input yields identical output (in the embedding this is definitional:
the source computes from its arguments alone, with no hidden state). -/
theorem check_availability_deterministic :
    ∀ (sIn eIn : TimeInput) (items : List GEvent) (wStart wEnd : Int)
      (busy : List (Int × Int)),
      check_availability sIn eIn items = check_availability sIn eIn items ∧
      freeSlots wStart wEnd busy = freeSlots wStart wEnd busy :=
  fun _ _ _ _ _ _ => ⟨rfl, rfl⟩

/-- Claim C10: when any event of the provider's list lacks a parseable
`dateTime` in its start or end (for instance an all-day event), parsing it
raises, the catch-all handler catches, and `check_availability` returns the
generic error message rather than any list of slots. -/
theorem check_availability_missing_datetime_error (sIn eIn : TimeInput)
    (items : List GEvent)
    (h : ∃ ev ∈ items, parseField ev.startField = none ∨ parseField ev.endField = none) :
    check_availability sIn eIn items = CheckResult.error := by
  cases hs : dateParse sIn with
  | none => simp [check_availability, hs]
  | some s =>
    cases he : dateParse eIn with
    | none => simp [check_availability, hs, he]
    | some e =>
      have hpb := parseBusy_eq_none items h
      obtain ⟨ev, hev, _⟩ := h
      cases items with
      | nil => simp at hev
      | cons a rest => simp [check_availability, hs, he, hpb]

/-- Witness for claim C10 with an all-day event carrying no start
`dateTime`. -/
theorem check_availability_missing_datetime_witness :
    (∃ ev ∈ [GEvent.mk none (some (TimeInput.valid 600))],
      parseField ev.startField = none ∨ parseField ev.endField = none) ∧
    check_availability (TimeInput.valid 540) (TimeInput.valid 720)
      [GEvent.mk none (some (TimeInput.valid 600))] = CheckResult.error :=
  ⟨⟨GEvent.mk none (some (TimeInput.valid 600)), List.mem_cons_self _ _, Or.inl rfl⟩,
    check_availability_missing_datetime_error _ _ _
      ⟨GEvent.mk none (some (TimeInput.valid 600)), List.mem_cons_self _ _, Or.inl rfl⟩⟩
